import Mathlib

/-!
Shallow embedding of `prospect/models/transforms.py` over the real numbers,
together with theorems settling the specification claims about the
star-formation-history parameter transforms.

Conventions of the embedding:

* numpy float arrays become `List ℝ`; `10 ** x` becomes `Real.rpow 10 x`.
* Division is Lean's total real division.  Where the Python code can divide
  by zero (numpy silently produces NaN/Inf there), a side predicate named
  `...OK` records, with the same recursion structure as the function, that
  every divisor encountered is nonzero; a run of the Python code stays inside
  real arithmetic (no NaN/Inf) exactly when the predicate holds.
* `np.insert`, which raises `IndexError` on an out-of-bounds index, is
  modelled with `Option` (`none` = raised).
* The cosmology lookup `cosmo.age(zred).value` (an external collaborator,
  returning Gyr) is an uninterpreted function parameter `cosmoAge : ℝ → ℝ`.
* The `**extras` keyword-argument calling convention is modelled by a small
  universe `Val` of argument values, keyword dictionaries `Kwargs`, and one
  wrapper per transform that extracts only its named parameters.
-/

open Classical

namespace Prospect

noncomputable section

/-- `10 ** x` (numpy elementwise power with base `10`), i.e. `Real.rpow 10 x`. -/
def tenpow (x : ℝ) : ℝ := (10 : ℝ) ^ x

/-- `np.diff(10**agebins, axis=-1)[:, 0]`: the width of each age bin in
linear years, `10**end - 10**start`. -/
def time_per_bin (agebins : List (ℝ × ℝ)) : List ℝ :=
  agebins.map (fun ab => tenpow ab.2 - tenpow ab.1)

/-- The index loop shared by `zfrac_to_sfrac`, `zfrac_to_masses` and
`zfrac_to_sfr`: entry `i` of the result is `prod(z_fraction[:i]) * (1 -
z_fraction[i])` (for `i = 0` this is `1.0 - z_fraction[0]`); the accumulator
`p` carries the product of the entries consumed so far. -/
def sfracInitAux : List ℝ → ℝ → List ℝ
  | [], _ => []
  | zi :: rest, p => p * (1 - zi) :: sfracInitAux rest (p * zi)

/-- `zfrac_to_sfrac(z_fraction)`: the first `len(z_fraction)` entries come
from the stick-breaking loop, and the final entry is
`1 - np.sum(sfr_fraction[:-1])`. -/
def zfrac_to_sfrac (z_fraction : List ℝ) : List ℝ :=
  sfracInitAux z_fraction 1 ++ [1 - (sfracInitAux z_fraction 1).sum]

/-- The un-normalized `mass_fraction = sfr_fraction * np.array(time_per_bin)`
computed inline (with the same stick-breaking loop) by both
`zfrac_to_masses` and `zfrac_to_sfr`. -/
def mass_fraction_of (z_fraction : List ℝ) (agebins : List (ℝ × ℝ)) : List ℝ :=
  List.zipWith (· * ·)
    (sfracInitAux z_fraction 1 ++ [1 - (sfracInitAux z_fraction 1).sum])
    (time_per_bin agebins)

/-- `zfrac_to_masses(total_mass, z_fraction, agebins)`: normalize
`mass_fraction` by its sum and scale by `total_mass`. -/
def zfrac_to_masses (total_mass : ℝ) (z_fraction : List ℝ)
    (agebins : List (ℝ × ℝ)) : List ℝ :=
  ((mass_fraction_of z_fraction agebins).map
      (· / (mass_fraction_of z_fraction agebins).sum)).map
    (fun m => total_mass * m)

/-- `zfrac_to_sfr(total_mass, z_fraction, agebins)`: the same computation as
`zfrac_to_masses` (re-implemented inline in the source), followed by
`masses / time_per_bin`. -/
def zfrac_to_sfr (total_mass : ℝ) (z_fraction : List ℝ)
    (agebins : List (ℝ × ℝ)) : List ℝ :=
  List.zipWith (· / ·)
    (((mass_fraction_of z_fraction agebins).map
        (· / (mass_fraction_of z_fraction agebins).sum)).map
      (fun m => total_mass * m))
    (time_per_bin agebins)

/-- The inverse stick-breaking loop of `masses_to_zfrac`:
`z_fraction[i] = 1.0 - sfr_fraction[i] / np.prod(z_fraction[:i])`, the
accumulator `p` carrying `np.prod(z_fraction[:i])`. -/
def invertLoop : List ℝ → ℝ → List ℝ
  | [], _ => []
  | si :: rest, p => (1 - si / p) :: invertLoop rest (p * (1 - si / p))

/-- Divisor condition for `invertLoop`: the running product divided by at
each step is nonzero (numpy would otherwise put NaN/Inf in the result). -/
def invertLoopOK : List ℝ → ℝ → Prop
  | [], _ => True
  | si :: rest, p => p ≠ 0 ∧ invertLoopOK rest (p * (1 - si / p))

/-- `sfr_fraction = mass / time_per_bin` (first division of
`masses_to_zfrac`). -/
def sfr_from_mass (mass : List ℝ) (agebins : List (ℝ × ℝ)) : List ℝ :=
  List.zipWith (· / ·) mass (time_per_bin agebins)

/-- `sfr_fraction /= sfr_fraction.sum()` (second division of
`masses_to_zfrac`). -/
def norm_sfr (mass : List ℝ) (agebins : List (ℝ × ℝ)) : List ℝ :=
  (sfr_from_mass mass agebins).map (· / (sfr_from_mass mass agebins).sum)

/-- The z-fraction reconstruction of `masses_to_zfrac`:
`z_fraction[0] = 1 - sfr_fraction[0]` (no division) and the loop runs for
`i = 1 .. N-2`, consuming `sfr_fraction[1 : N-1]`. -/
def zfrac_of_sfr : List ℝ → List ℝ
  | [] => []
  | s0 :: srest => (1 - s0) :: invertLoop srest.dropLast (1 - s0)

/-- `masses_to_zfrac(mass, agebins)`: returns `(total_mass, z_fraction)`. -/
def masses_to_zfrac (mass : List ℝ) (agebins : List (ℝ × ℝ)) : ℝ × List ℝ :=
  (mass.sum, zfrac_of_sfr (norm_sfr mass agebins))

/-- Divisor condition for the `zfrac_of_sfr` step. -/
def zfrac_of_sfrOK : List ℝ → Prop
  | [] => True
  | s0 :: srest => invertLoopOK srest.dropLast (1 - s0)

/-- All divisors appearing in a run of `masses_to_zfrac` are nonzero: the
bin widths (`mass / time_per_bin`), the sfr-fraction sum
(`sfr_fraction /= sfr_fraction.sum()`), and every running product of the
inverse stick-breaking loop.  Exactly when this fails, the numpy original
silently produces NaN/Inf in its output instead of raising. -/
def masses_to_zfracOK (mass : List ℝ) (agebins : List (ℝ × ℝ)) : Prop :=
  (∀ w ∈ time_per_bin agebins, w ≠ 0) ∧
  (sfr_from_mass mass agebins).sum ≠ 0 ∧
  zfrac_of_sfrOK (norm_sfr mass agebins)

/-- The round-trip harness of the specification (mirrors the spec's words,
for the relational round-trip claim): per-bin masses proportional to
`S_i * W_i` with total mass `1`, where `W = time_per_bin agebins`. -/
def project_masses (S : List ℝ) (agebins : List (ℝ × ℝ)) : List ℝ :=
  (List.zipWith (· * ·) S (time_per_bin agebins)).map
    (· / (List.zipWith (· * ·) S (time_per_bin agebins)).sum)

/-- `np.cumprod`: running products, accumulator carried. -/
def cumprodAux : List ℝ → ℝ → List ℝ
  | [], _ => []
  | x :: rest, acc => (acc * x) :: cumprodAux rest (acc * x)

/-- `np.cumprod(arr)`. -/
def cumprod (arr : List ℝ) : List ℝ := cumprodAux arr 1

/-- `np.insert(arr, obj, v)` for a scalar index `obj` given as a float:
defined when `obj` is (the embedding of) a natural number `n ≤ len(arr)`,
in which case `v` is inserted at position `n`; otherwise numpy raises
`IndexError` (out-of-bounds or non-integer index), modelled as `none`.
(Negative indices, which numpy also accepts, never arise here.) -/
def np_insert (arr : List ℝ) (obj : ℝ) (v : ℝ) : Option (List ℝ) :=
  if h : ∃ n : ℕ, (n : ℝ) = obj ∧ n ≤ arr.length then
    some (arr.take h.choose ++ v :: arr.drop h.choose)
  else
    none

/-- `sfratio_to_sfr(sfr_ratio, sfr0)`: as written in the source,
`np.insert(np.cumprod(sfr_ratio) * sfr0, sfr0, 0)` — note that `sfr0` is
passed in the index position of `np.insert` and `0` as the inserted value. -/
def sfratio_to_sfr (sfr_ratio : List ℝ) (sfr0 : ℝ) : Option (List ℝ) :=
  np_insert ((cumprod sfr_ratio).map (· * sfr0)) sfr0 0

/-- `sfratio_to_mass(sfr_ratio, sfr0, agebins) = sfratio_to_sfr(...) *
time_per_bin` (propagating the `IndexError` of `sfratio_to_sfr`). -/
def sfratio_to_mass (sfr_ratio : List ℝ) (sfr0 : ℝ)
    (agebins : List (ℝ × ℝ)) : Option (List ℝ) :=
  (sfratio_to_sfr sfr_ratio sfr0).map
    (fun sfr => List.zipWith (· * ·) sfr (time_per_bin agebins))

/-- `np.linspace(start, stop, num)` with the default `endpoint=True`:
`start + i * (stop - start) / (num - 1)` for `i = 0 .. num-1` (for
`num = 1` this is `[start]`, for `num = 0` the empty list, matching numpy). -/
def linspace (start stop : ℝ) (num : ℕ) : List ℝ :=
  (List.range num).map (fun i => start + (i : ℝ) * (stop - start) / ((num : ℝ) - 1))

/-- `np.log10`. -/
def log10 (x : ℝ) : ℝ := Real.logb 10 x

/-- `zred_to_agebins(zred, agebins)` with the external cosmology service
abstracted as `cosmoAge` (age of the universe in Gyr at a given redshift):
keeps the first template bin, linearly interpolates interior edges up to
`log10(0.85 * tuniv)`, and caps the final edge at `log10(tuniv)`; the result
pairs `agelims[:-1]` with `agelims[1:]`. -/
def zred_to_agebins (cosmoAge : ℝ → ℝ) (zred : ℝ)
    (agebins : List (ℝ × ℝ)) : List (ℝ × ℝ) :=
  let tuniv := cosmoAge zred * 1e9
  let tbinmax := tuniv * 0.85
  let ncomp := agebins.length
  let agelims :=
    [(agebins.getD 0 (0, 0)).1, (agebins.getD 0 (0, 0)).2] ++
      linspace (agebins.getD 1 (0, 0)).2 (log10 tbinmax) (ncomp - 2) ++
      [log10 tuniv]
  List.zip agelims.dropLast agelims.tail

/-- `stellar_logzsol(logzsol)`. -/
def stellar_logzsol (logzsol : ℝ) : ℝ := logzsol

/-- `delogify_mass(logmass) = 10**logmass`. -/
def delogify_mass (logmass : ℝ) : ℝ := tenpow logmass

/-- `tburst_from_fage(tage, fage_burst) = tage * fage_burst`. -/
def tburst_from_fage (tage fage_burst : ℝ) : ℝ := tage * fage_burst

/-- `tage_from_tuniv(zred, tage_tuniv) = tage_tuniv * cosmo.age(zred).value`,
the cosmology lookup abstracted as `cosmoAge`. -/
def tage_from_tuniv (cosmoAge : ℝ → ℝ) (zred tage_tuniv : ℝ) : ℝ :=
  tage_tuniv * cosmoAge zred

/-- `dustratio_to_dust1(dust2, dust_ratio) = dust2 * dust_ratio`. -/
def dustratio_to_dust1 (dust2 dust_ratio : ℝ) : ℝ := dust2 * dust_ratio

/-- Universe of keyword-argument values passed to the transforms: scalars,
flat vectors, and age-bin tables. -/
inductive Val where
  | num : ℝ → Val
  | vec : List ℝ → Val
  | bins : List (ℝ × ℝ) → Val

/-- A keyword-argument dictionary, as passed with `f(**params)`. -/
abbrev Kwargs : Type := List (String × Val)

/-- Keyword lookup (first binding wins). -/
def lookupKw (kw : Kwargs) (key : String) : Option Val :=
  (kw.find? (fun p => p.1 == key)).map Prod.snd

/-- Extract a named scalar parameter, falling back to the signature default. -/
def getNum (kw : Kwargs) (key : String) (dflt : ℝ) : ℝ :=
  match lookupKw kw key with
  | some (Val.num x) => x
  | _ => dflt

/-- Extract a named vector parameter, falling back to the signature default. -/
def getVec (kw : Kwargs) (key : String) (dflt : List ℝ) : List ℝ :=
  match lookupKw kw key with
  | some (Val.vec x) => x
  | _ => dflt

/-- Extract the named `agebins` parameter, falling back to the default. -/
def getBins (kw : Kwargs) (key : String) (dflt : List (ℝ × ℝ)) : List (ℝ × ℝ) :=
  match lookupKw kw key with
  | some (Val.bins x) => x
  | _ => dflt

/-- `stellar_logzsol(**params)`: extracts only `logzsol`. -/
def stellar_logzsol_kw (kw : Kwargs) : ℝ :=
  stellar_logzsol (getNum kw "logzsol" 0)

/-- `delogify_mass(**params)`: extracts only `logmass`. -/
def delogify_mass_kw (kw : Kwargs) : ℝ :=
  delogify_mass (getNum kw "logmass" 0)

/-- `tburst_from_fage(**params)`: extracts only `tage` and `fage_burst`. -/
def tburst_from_fage_kw (kw : Kwargs) : ℝ :=
  tburst_from_fage (getNum kw "tage" 0) (getNum kw "fage_burst" 0)

/-- `tage_from_tuniv(**params)`: extracts only `zred` and `tage_tuniv`. -/
def tage_from_tuniv_kw (cosmoAge : ℝ → ℝ) (kw : Kwargs) : ℝ :=
  tage_from_tuniv cosmoAge (getNum kw "zred" 0) (getNum kw "tage_tuniv" 1)

/-- `zred_to_agebins(**params)`: extracts only `zred` and `agebins`. -/
def zred_to_agebins_kw (cosmoAge : ℝ → ℝ) (kw : Kwargs) : List (ℝ × ℝ) :=
  zred_to_agebins cosmoAge (getNum kw "zred" 0) (getBins kw "agebins" [])

/-- `dustratio_to_dust1(**params)`: extracts only `dust2` and `dust_ratio`. -/
def dustratio_to_dust1_kw (kw : Kwargs) : ℝ :=
  dustratio_to_dust1 (getNum kw "dust2" 0) (getNum kw "dust_ratio" 0)

/-- `zfrac_to_sfrac(**params)`: extracts only `z_fraction`. -/
def zfrac_to_sfrac_kw (kw : Kwargs) : List ℝ :=
  zfrac_to_sfrac (getVec kw "z_fraction" [])

/-- `zfrac_to_masses(**params)`: extracts only `total_mass`, `z_fraction`,
`agebins`. -/
def zfrac_to_masses_kw (kw : Kwargs) : List ℝ :=
  zfrac_to_masses (getNum kw "total_mass" 0) (getVec kw "z_fraction" [])
    (getBins kw "agebins" [])

/-- `zfrac_to_sfr(**params)`: extracts only `total_mass`, `z_fraction`,
`agebins`. -/
def zfrac_to_sfr_kw (kw : Kwargs) : List ℝ :=
  zfrac_to_sfr (getNum kw "total_mass" 0) (getVec kw "z_fraction" [])
    (getBins kw "agebins" [])

/-- `masses_to_zfrac(**params)`: extracts only `mass` and `agebins`. -/
def masses_to_zfrac_kw (kw : Kwargs) : ℝ × List ℝ :=
  masses_to_zfrac (getVec kw "mass" []) (getBins kw "agebins" [])

/-- `sfratio_to_sfr(**params)`: extracts only `sfr_ratio` and `sfr0`. -/
def sfratio_to_sfr_kw (kw : Kwargs) : Option (List ℝ) :=
  sfratio_to_sfr (getVec kw "sfr_ratio" []) (getNum kw "sfr0" 0)

/-- `sfratio_to_mass(**params)`: extracts only `sfr_ratio`, `sfr0`,
`agebins`. -/
def sfratio_to_mass_kw (kw : Kwargs) : Option (List ℝ) :=
  sfratio_to_mass (getVec kw "sfr_ratio" []) (getNum kw "sfr0" 0)
    (getBins kw "agebins" [])

/-- The named parameter keys of the transforms in the module. -/
def namedKeys : List String :=
  ["logzsol", "logmass", "tage", "fage_burst", "zred", "tage_tuniv",
   "agebins", "dust2", "dust_ratio", "total_mass", "z_fraction", "mass",
   "sfr_ratio", "sfr0"]

/-- A full parameter dictionary binding every named key (used to witness the
noninterference of unrecognized keys). -/
def kwBase : Kwargs :=
  [("logzsol", Val.num 1), ("logmass", Val.num 2), ("tage", Val.num 3),
   ("fage_burst", Val.num 4), ("zred", Val.num 5), ("tage_tuniv", Val.num 6),
   ("agebins", Val.bins [(6, 7), (7, 8)]), ("dust2", Val.num 7),
   ("dust_ratio", Val.num 8), ("total_mass", Val.num 9),
   ("z_fraction", Val.vec [0.5]), ("mass", Val.vec [1, 2]),
   ("sfr_ratio", Val.vec [2]), ("sfr0", Val.num 13)]

/-- `kwBase` plus one unrecognized keyword. -/
def kwExtra1 : Kwargs := kwBase ++ [("unused_extra", Val.num 99)]

/-- `kwBase` plus a different unrecognized keyword. -/
def kwExtra2 : Kwargs := kwBase ++ [("another_extra", Val.vec [1, 2, 3])]

end

/-! ### Helper lemmas about the stick-breaking loops -/

lemma sfracInitAux_length (z : List ℝ) : ∀ p : ℝ, (sfracInitAux z p).length = z.length := by
  induction z with
  | nil => intro p; rfl
  | cons zi rest ih => intro p; simp [sfracInitAux, ih]

lemma sfracInitAux_sum (z : List ℝ) : ∀ p : ℝ, (sfracInitAux z p).sum = p - p * z.prod := by
  induction z with
  | nil => intro p; simp [sfracInitAux]
  | cons zi rest ih => intro p; simp [sfracInitAux, ih]; ring

lemma sfracInitAux_mem (z : List ℝ) : ∀ p : ℝ, 0 < p → p ≤ 1 →
    (∀ x ∈ z, 0 < x ∧ x < 1) → ∀ y ∈ sfracInitAux z p, 0 < y ∧ y < 1 := by
  induction z with
  | nil => intro p _ _ _ y hy; simp [sfracInitAux] at hy
  | cons zi rest ih =>
    intro p hp hp1 hz y hy
    obtain ⟨hzi0, hzi1⟩ := hz zi (by simp)
    simp only [sfracInitAux, List.mem_cons] at hy
    rcases hy with rfl | hy
    · refine ⟨mul_pos hp (by linarith), ?_⟩
      nlinarith
    · exact ih (p * zi) (mul_pos hp hzi0) (by nlinarith)
        (fun x hx => hz x (by simp [hx])) y hy

lemma prod_mem_bounds (z : List ℝ) (hz : ∀ x ∈ z, 0 < x ∧ x < 1) :
    0 < z.prod ∧ z.prod ≤ 1 := by
  induction z with
  | nil => simp
  | cons zi rest ih =>
    obtain ⟨h0, h1⟩ := hz zi (by simp)
    obtain ⟨r0, r1⟩ := ih (fun x hx => hz x (by simp [hx]))
    simp only [List.prod_cons]
    exact ⟨mul_pos h0 r0, by nlinarith⟩

lemma sum_map_div (l : List ℝ) (c : ℝ) : (l.map (· / c)).sum = l.sum / c := by
  induction l with
  | nil => simp
  | cons x rest ih => simp [ih, add_div]

lemma sum_map_mul_const (l : List ℝ) (c : ℝ) :
    (l.map (fun x => c * x)).sum = c * l.sum := by
  induction l with
  | nil => simp
  | cons x rest ih => simp [ih, mul_add]

/-! ### C1 and C7: the forward simplex transform -/

/-- C1: for every z-fraction vector of length `N-1 ≥ 1` with all entries
strictly in `(0,1)`, `zfrac_to_sfrac` returns a vector of length `N` whose
entries lie in `[0,1]` and whose sum is exactly `1`. -/
theorem zfrac_to_sfrac_simplex (z : List ℝ) (_hlen : 1 ≤ z.length)
    (hz : ∀ x ∈ z, 0 < x ∧ x < 1) :
    (zfrac_to_sfrac z).length = z.length + 1 ∧
    (zfrac_to_sfrac z).sum = 1 ∧
    ∀ y ∈ zfrac_to_sfrac z, 0 ≤ y ∧ y ≤ 1 := by
  refine ⟨?_, ?_, ?_⟩
  · simp [zfrac_to_sfrac, sfracInitAux_length]
  · simp [zfrac_to_sfrac]
  · intro y hy
    simp only [zfrac_to_sfrac, List.mem_append, List.mem_singleton] at hy
    rcases hy with hy | rfl
    · have h := sfracInitAux_mem z 1 one_pos le_rfl hz y hy
      exact ⟨le_of_lt h.1, le_of_lt h.2⟩
    · rw [sfracInitAux_sum]
      obtain ⟨hp, hp1⟩ := prod_mem_bounds z hz
      constructor <;> nlinarith

/-- Witness for C1 at the concrete input `z = [0.5]`. -/
theorem zfrac_to_sfrac_simplex_witness :
    (1 ≤ ([0.5] : List ℝ).length ∧ ∀ x ∈ ([0.5] : List ℝ), 0 < x ∧ x < 1) ∧
    ((zfrac_to_sfrac [0.5]).length = ([0.5] : List ℝ).length + 1 ∧
     (zfrac_to_sfrac [0.5]).sum = 1 ∧
     ∀ y ∈ zfrac_to_sfrac [0.5], 0 ≤ y ∧ y ≤ 1) :=
  by
  have hz : ∀ x ∈ ([0.5] : List ℝ), 0 < x ∧ x < 1 := by
    intro x hx
    simp only [List.mem_singleton] at hx
    subst hx
    constructor <;> norm_num
  exact ⟨⟨by simp, hz⟩, zfrac_to_sfrac_simplex [0.5] (by simp) hz⟩

/-- C7: for a single z-fraction `z0` (the `N = 2` boundary case),
`zfrac_to_sfrac [z0] = [1 - z0, z0]`, for every real `z0`. -/
theorem zfrac_to_sfrac_len_one (z0 : ℝ) : zfrac_to_sfrac [z0] = [1 - z0, z0] := by
  simp [zfrac_to_sfrac, sfracInitAux]

/-! ### C4: mass conservation of `zfrac_to_masses` -/

lemma zipWith_mul_mem_pos : ∀ (a b : List ℝ), (∀ x ∈ a, 0 < x) → (∀ x ∈ b, 0 < x) →
    ∀ y ∈ List.zipWith (· * ·) a b, 0 < y := by
  intro a
  induction a with
  | nil => intro b _ _ y hy; simp at hy
  | cons x rest ih =>
    intro b ha hb y hy
    cases b with
    | nil => simp at hy
    | cons w bs =>
      simp only [List.zipWith_cons_cons, List.mem_cons] at hy
      rcases hy with rfl | hy
      · exact mul_pos (ha x (by simp)) (hb w (by simp))
      · exact ih bs (fun u hu => ha u (by simp [hu])) (fun u hu => hb u (by simp [hu])) y hy

lemma sfr_fraction_pos (z : List ℝ) (hz : ∀ x ∈ z, 0 < x ∧ x < 1) :
    ∀ y ∈ sfracInitAux z 1 ++ [1 - (sfracInitAux z 1).sum], 0 < y := by
  intro y hy
  simp only [List.mem_append, List.mem_singleton] at hy
  rcases hy with hy | rfl
  · exact (sfracInitAux_mem z 1 one_pos le_rfl hz y hy).1
  · rw [sfracInitAux_sum]
    have h := (prod_mem_bounds z hz).1
    nlinarith

/-- C4: for positive `total_mass`, a nonempty z-fraction vector with entries
in `(0,1)` and age bins of matching length with strictly positive widths,
the per-bin masses of `zfrac_to_masses` sum exactly to `total_mass` and are
all non-negative. -/
theorem zfrac_to_masses_conserves (total_mass : ℝ) (z : List ℝ)
    (agebins : List (ℝ × ℝ)) (htm : 0 < total_mass) (_hzlen : 1 ≤ z.length)
    (hlen : agebins.length = z.length + 1)
    (hz : ∀ x ∈ z, 0 < x ∧ x < 1)
    (hw : ∀ w ∈ time_per_bin agebins, 0 < w) :
    (zfrac_to_masses total_mass z agebins).sum = total_mass ∧
    ∀ m ∈ zfrac_to_masses total_mass z agebins, 0 ≤ m := by
  have hmf : mass_fraction_of z agebins =
      List.zipWith (· * ·) (sfracInitAux z 1 ++ [1 - (sfracInitAux z 1).sum])
        (time_per_bin agebins) := rfl
  have hmfpos : ∀ y ∈ mass_fraction_of z agebins, 0 < y := by
    rw [hmf]
    exact zipWith_mul_mem_pos _ _ (sfr_fraction_pos z hz) hw
  have hmfne : mass_fraction_of z agebins ≠ [] := by
    have hlength : (mass_fraction_of z agebins).length = z.length + 1 := by
      rw [hmf]
      simp [List.length_zipWith, time_per_bin, hlen, sfracInitAux_length]
    intro hnil
    rw [hnil] at hlength
    simp at hlength
  have hsum : 0 < (mass_fraction_of z agebins).sum :=
    List.sum_pos _ hmfpos hmfne
  constructor
  · simp only [zfrac_to_masses]
    rw [sum_map_mul_const, sum_map_div, div_self (ne_of_gt hsum), mul_one]
  · intro m hm
    simp only [zfrac_to_masses, List.mem_map] at hm
    obtain ⟨x, ⟨u, hu, rfl⟩, rfl⟩ := hm
    have hux := hmfpos u hu
    have : 0 < u / (mass_fraction_of z agebins).sum := div_pos hux hsum
    nlinarith

/-- Witness for C4 at `total_mass = 100`, `z = [0.5]`,
`agebins = [[0,1],[1,2]]`. -/
theorem zfrac_to_masses_conserves_witness :
    ((0:ℝ) < 100 ∧ 1 ≤ ([0.5] : List ℝ).length ∧
     ([((0:ℝ),(1:ℝ)), (1, 2)] : List (ℝ × ℝ)).length = ([0.5] : List ℝ).length + 1 ∧
     (∀ x ∈ ([0.5] : List ℝ), 0 < x ∧ x < 1) ∧
     (∀ w ∈ time_per_bin [((0:ℝ),(1:ℝ)), (1, 2)], 0 < w)) ∧
    ((zfrac_to_masses 100 [0.5] [((0:ℝ),(1:ℝ)), (1, 2)]).sum = 100 ∧
     ∀ m ∈ zfrac_to_masses 100 [0.5] [((0:ℝ),(1:ℝ)), (1, 2)], 0 ≤ m) := by
  have h1 : tenpow 1 = 10 := by simp [tenpow, Real.rpow_one]
  have h0 : tenpow 0 = 1 := by simp [tenpow, Real.rpow_zero]
  have h2 : tenpow 2 = 100 := by
    rw [show (2:ℝ) = ((2:ℕ):ℝ) by norm_num, tenpow, Real.rpow_natCast]
    norm_num
  have hz : ∀ x ∈ ([0.5] : List ℝ), 0 < x ∧ x < 1 := by
    intro x hx
    simp only [List.mem_singleton] at hx
    subst hx
    constructor <;> norm_num
  have hw : ∀ w ∈ time_per_bin [((0:ℝ),(1:ℝ)), (1, 2)], 0 < w := by
    intro w hw
    simp only [time_per_bin, List.map_cons, List.map_nil, List.mem_cons,
      List.not_mem_nil, or_false, h0, h1, h2] at hw
    rcases hw with rfl | rfl <;> norm_num
  exact ⟨⟨by norm_num, by simp, by simp, hz, hw⟩,
    zfrac_to_masses_conserves 100 [0.5] [((0:ℝ),(1:ℝ)), (1, 2)]
      (by norm_num) (by simp) (by simp) hz hw⟩

/-! ### C10: `zfrac_to_sfr` is `zfrac_to_masses` divided by the bin widths -/

/-- C10: for every `total_mass`, z-fraction vector and agebins, the output of
`zfrac_to_sfr` equals the output of `zfrac_to_masses` on the same inputs
divided elementwise by the linear bin widths `10^end - 10^start` (the two
functions re-implement the very same simplex-and-mass-fraction pipeline). -/
theorem zfrac_to_sfr_is_masses_div_width (total_mass : ℝ) (z : List ℝ)
    (agebins : List (ℝ × ℝ)) :
    zfrac_to_sfr total_mass z agebins =
      List.zipWith (· / ·) (zfrac_to_masses total_mass z agebins)
        (agebins.map (fun ab => tenpow ab.2 - tenpow ab.1)) := rfl

/-! ### C6: the concrete three-bin scenario -/

lemma tenpow_nat (n : ℕ) : tenpow (n : ℝ) = (10:ℝ) ^ n := by
  simp [tenpow, Real.rpow_natCast]

/-- C6: with `agebins = [[6,7],[7,8],[8,9]]`, `z_fraction = [0.5,0.5]` and
`total_mass = 100`: the widths are `[9e6, 9e7, 9e8]` years, the sfr fractions
are `[0.5, 0.25, 0.25]`, the masses are `100 * [0.5*9e6, 0.25*9e7, 0.25*9e8]`
normalized — `[25/14, 125/14, 625/7]` — which sum to `100` and are strictly
increasing. -/
theorem zfrac_pipeline_concrete :
    time_per_bin [((6:ℝ),(7:ℝ)), (7, 8), (8, 9)] = [9e6, 9e7, 9e8] ∧
    zfrac_to_sfrac [0.5, 0.5] = [0.5, 0.25, 0.25] ∧
    zfrac_to_masses 100 [0.5, 0.5] [((6:ℝ),(7:ℝ)), (7, 8), (8, 9)] =
      [25/14, 125/14, 625/7] ∧
    (zfrac_to_masses 100 [0.5, 0.5] [((6:ℝ),(7:ℝ)), (7, 8), (8, 9)]).sum = 100 ∧
    List.Chain' (· < ·)
      (zfrac_to_masses 100 [0.5, 0.5] [((6:ℝ),(7:ℝ)), (7, 8), (8, 9)]) := by
  have h6 : tenpow 6 = 1000000 := by
    rw [show (6:ℝ) = ((6:ℕ):ℝ) by norm_num, tenpow_nat]
    norm_num
  have h7 : tenpow 7 = 10000000 := by
    rw [show (7:ℝ) = ((7:ℕ):ℝ) by norm_num, tenpow_nat]
    norm_num
  have h8 : tenpow 8 = 100000000 := by
    rw [show (8:ℝ) = ((8:ℕ):ℝ) by norm_num, tenpow_nat]
    norm_num
  have h9 : tenpow 9 = 1000000000 := by
    rw [show (9:ℝ) = ((9:ℕ):ℝ) by norm_num, tenpow_nat]
    norm_num
  have hw : time_per_bin [((6:ℝ),(7:ℝ)), (7, 8), (8, 9)] = [9e6, 9e7, 9e8] := by
    simp only [time_per_bin, List.map_cons, List.map_nil, h6, h7, h8, h9]
    norm_num
  have hmass : zfrac_to_masses 100 [0.5, 0.5] [((6:ℝ),(7:ℝ)), (7, 8), (8, 9)] =
      [25/14, 125/14, 625/7] := by
    simp only [zfrac_to_masses, mass_fraction_of, sfracInitAux, hw,
      List.append_nil, List.cons_append, List.nil_append, List.zipWith_cons_cons,
      List.zipWith_nil_right, List.zipWith_nil_left, List.sum_cons, List.sum_nil,
      List.map_cons, List.map_nil]
    norm_num
  refine ⟨hw, ?_, hmass, ?_, ?_⟩
  · simp only [zfrac_to_sfrac, sfracInitAux, List.cons_append, List.nil_append,
      List.sum_cons, List.sum_nil]
    norm_num
  · rw [hmass]
    norm_num
  · rw [hmass]
    refine List.chain'_cons.mpr ⟨by norm_num, ?_⟩
    refine List.chain'_cons.mpr ⟨by norm_num, ?_⟩
    simp

/-! ### C2: the round-trip law, and C5: the degenerate inverse inputs -/

lemma invertLoop_spec : ∀ (s : List ℝ) (p : ℝ),
    (∀ i, i < s.length → p - (s.take i).sum ≠ 0) →
    invertLoopOK s p ∧ sfracInitAux (invertLoop s p) p = s := by
  intro s
  induction s with
  | nil => intro p _; exact ⟨trivial, rfl⟩
  | cons s0 rest ih =>
    intro p hp
    have hp0 : p ≠ 0 := by simpa using hp 0 (by simp)
    have hstep : p * (1 - s0 / p) = p - s0 := by
      field_simp
    have hrest : ∀ i, i < rest.length → (p - s0) - (rest.take i).sum ≠ 0 := by
      intro i hi
      have h := hp (i + 1) (by simpa using Nat.succ_lt_succ hi)
      simpa [List.take_succ_cons, sub_sub] using h
    obtain ⟨hOK, hEq⟩ := ih (p - s0) hrest
    constructor
    · refine ⟨hp0, ?_⟩
      rw [hstep]
      exact hOK
    · show sfracInitAux ((1 - s0 / p) :: invertLoop rest (p * (1 - s0 / p))) p =
        s0 :: rest
      simp only [sfracInitAux]
      have hhead : p * (1 - (1 - s0 / p)) = s0 := by
        field_simp
      rw [hstep, hhead, hEq]

lemma div_width_cancel : ∀ (S W : List ℝ), S.length ≤ W.length →
    (∀ w ∈ W, w ≠ 0) → ∀ T : ℝ,
    List.zipWith (· / ·) ((List.zipWith (· * ·) S W).map (· / T)) W =
      S.map (· / T) := by
  intro S
  induction S with
  | nil => intro W _ _ T; simp
  | cons s rest ih =>
    intro W hlen hW T
    cases W with
    | nil => simp at hlen
    | cons w ws =>
      have hw : w ≠ 0 := hW w (by simp)
      simp only [List.zipWith_cons_cons, List.map_cons]
      rw [ih ws (by simpa using Nat.le_of_succ_le_succ hlen)
        (fun u hu => hW u (by simp [hu])) T]
      congr 1
      rcases eq_or_ne T 0 with rfl | hT
      · simp
      · field_simp
        ring

lemma zipWith_mul_sum_nonneg : ∀ (S W : List ℝ), (∀ x ∈ S, 0 ≤ x) →
    (∀ w ∈ W, 0 ≤ w) → 0 ≤ (List.zipWith (· * ·) S W).sum := by
  intro S
  induction S with
  | nil => intro W _ _; simp
  | cons s rest ih =>
    intro W hS hW
    cases W with
    | nil => simp
    | cons w ws =>
      simp only [List.zipWith_cons_cons, List.sum_cons]
      have h1 : 0 ≤ s * w := mul_nonneg (hS s (by simp)) (hW w (by simp))
      have h2 := ih ws (fun u hu => hS u (by simp [hu])) (fun u hu => hW u (by simp [hu]))
      linarith

lemma zipWith_mul_sum_pos : ∀ (S W : List ℝ), S.length ≤ W.length →
    (∀ x ∈ S, 0 ≤ x) → (∀ w ∈ W, 0 < w) → 0 < S.sum →
    0 < (List.zipWith (· * ·) S W).sum := by
  intro S
  induction S with
  | nil => intro W _ _ _ h; simp at h
  | cons s rest ih =>
    intro W hlen hS hW hsum
    cases W with
    | nil => simp at hlen
    | cons w ws =>
      simp only [List.zipWith_cons_cons, List.sum_cons]
      have hs0 : 0 ≤ s := hS s (by simp)
      have hw0 : 0 < w := hW w (by simp)
      have hrest_nn : 0 ≤ (List.zipWith (· * ·) rest ws).sum :=
        zipWith_mul_sum_nonneg rest ws (fun u hu => hS u (by simp [hu]))
          (fun u hu => le_of_lt (hW u (by simp [hu])))
      rcases lt_or_eq_of_le hs0 with hs | hs
      · have : 0 < s * w := mul_pos hs hw0
        linarith
      · have hrsum : 0 < rest.sum := by
          simp only [List.sum_cons, ← hs, zero_add] at hsum
          exact hsum
        have := ih ws (by simpa using Nat.le_of_succ_le_succ hlen)
          (fun u hu => hS u (by simp [hu])) (fun u hu => hW u (by simp [hu])) hrsum
        nlinarith [mul_nonneg hs0 (le_of_lt hw0)]

lemma norm_sfr_project (S : List ℝ) (bins : List (ℝ × ℝ))
    (hlen : S.length = bins.length)
    (hW : ∀ w ∈ time_per_bin bins, 0 < w)
    (hS : ∀ x ∈ S, 0 ≤ x) (hsum : S.sum = 1) :
    norm_sfr (project_masses S bins) bins = S ∧
    (sfr_from_mass (project_masses S bins) bins).sum ≠ 0 := by
  have hlenW : S.length ≤ (time_per_bin bins).length := by
    simp [time_per_bin, hlen]
  have hT : 0 < (List.zipWith (· * ·) S (time_per_bin bins)).sum :=
    zipWith_mul_sum_pos S (time_per_bin bins) hlenW hS hW (by rw [hsum]; norm_num)
  have hTne : (List.zipWith (· * ·) S (time_per_bin bins)).sum ≠ 0 := ne_of_gt hT
  have hfm : sfr_from_mass (project_masses S bins) bins =
      S.map (· / (List.zipWith (· * ·) S (time_per_bin bins)).sum) := by
    simp only [sfr_from_mass, project_masses]
    exact div_width_cancel S (time_per_bin bins) hlenW
      (fun w hw => ne_of_gt (hW w hw)) _
  have hfmsum : (sfr_from_mass (project_masses S bins) bins).sum =
      1 / (List.zipWith (· * ·) S (time_per_bin bins)).sum := by
    rw [hfm, sum_map_div, hsum]
  refine ⟨?_, by rw [hfmsum]; exact one_div_ne_zero hTne⟩
  rw [norm_sfr, hfmsum, hfm, List.map_map]
  have hfun : ((· / (1 / (List.zipWith (· * ·) S (time_per_bin bins)).sum)) ∘
      (· / (List.zipWith (· * ·) S (time_per_bin bins)).sum)) = id := by
    funext a
    simp only [Function.comp_apply, id_eq]
    rw [div_div]
    rw [show (List.zipWith (· * ·) S (time_per_bin bins)).sum *
      (1 / (List.zipWith (· * ·) S (time_per_bin bins)).sum) = 1 from
      mul_one_div_cancel hTne]
    exact div_one a
  rw [hfun, List.map_id]

/-- C2 (amended): for a simplex vector `S` (entries `≥ 0`, sum `1`, length
`N ≥ 2`) and matching age bins with positive widths, provided no proper
head of `S` of length `1 .. N-2` already sums to `1` (the degenerate inputs
on which the inverse divides by zero), projecting `S` to masses with total
mass `1`, inverting with `masses_to_zfrac`, and running `zfrac_to_sfrac`
on the recovered z-fractions reproduces `S` exactly, and every division
performed along the way has a nonzero divisor. -/
theorem roundtrip_recovers (S : List ℝ) (bins : List (ℝ × ℝ))
    (hlen : S.length = bins.length) (hN : 2 ≤ S.length)
    (hS : ∀ x ∈ S, 0 ≤ x) (hsum : S.sum = 1)
    (hW : ∀ w ∈ time_per_bin bins, 0 < w)
    (hnd : ∀ i, 1 ≤ i → i + 2 ≤ S.length → (S.take i).sum ≠ 1) :
    masses_to_zfracOK (project_masses S bins) bins ∧
    zfrac_to_sfrac (masses_to_zfrac (project_masses S bins) bins).2 = S := by
  obtain ⟨hns, hfmne⟩ := norm_sfr_project S bins hlen hW hS hsum
  obtain ⟨s0, srest, rfl⟩ : ∃ s0 srest, S = s0 :: srest := by
    cases S with
    | nil => simp at hN
    | cons a l => exact ⟨a, l, rfl⟩
  have hsrest_ne : srest ≠ [] := by
    intro h
    rw [h] at hN
    simp at hN
  have hcond : ∀ i, i < srest.dropLast.length →
      (1 - s0) - (srest.dropLast.take i).sum ≠ 0 := by
    intro i hi
    have hdl : srest.dropLast.length = srest.length - 1 := by simp
    rw [hdl] at hi
    have hiS : (i + 1) + 2 ≤ (s0 :: srest).length := by
      simp only [List.length_cons]
      omega
    have hne := hnd (i + 1) (by omega) hiS
    have htake2 : srest.dropLast.take i = srest.take i := by
      rw [List.dropLast_eq_take, List.take_take]
      congr 1
      omega
    rw [htake2]
    intro h0
    apply hne
    rw [List.take_succ_cons, List.sum_cons]
    linarith
  obtain ⟨hOK, hEq⟩ := invertLoop_spec srest.dropLast (1 - s0) hcond
  have hz : (masses_to_zfrac (project_masses (s0 :: srest) bins) bins).2 =
      (1 - s0) :: invertLoop srest.dropLast (1 - s0) := by
    simp only [masses_to_zfrac, hns, zfrac_of_sfr]
  constructor
  · refine ⟨fun w hw => ne_of_gt (hW w hw), hfmne, ?_⟩
    rw [hns]
    simpa only [zfrac_of_sfrOK] using hOK
  · rw [hz]
    simp only [zfrac_to_sfrac, sfracInitAux]
    rw [show (1:ℝ) * (1 - (1 - s0)) = s0 by ring,
        show (1:ℝ) * (1 - s0) = 1 - s0 by ring, hEq]
    have hgl := List.dropLast_append_getLast hsrest_ne
    have hsum2 : srest.getLast hsrest_ne = 1 - s0 - srest.dropLast.sum := by
      have h1 : s0 + srest.sum = 1 := by
        simpa only [List.sum_cons] using hsum
      have h2 : srest.sum = srest.dropLast.sum + srest.getLast hsrest_ne := by
        conv_lhs => rw [← hgl]
        simp
      linarith
    simp only [List.cons_append, List.sum_cons]
    congr 1
    rw [show (1 : ℝ) - (s0 + srest.dropLast.sum) =
      srest.getLast hsrest_ne by rw [hsum2]; ring]
    exact hgl

/-- Witness for C2's amended round-trip law at `S = [0.5, 0.25, 0.25]`,
`agebins = [[6,7],[7,8],[8,9]]`. -/
theorem roundtrip_recovers_witness :
    (([0.5, 0.25, 0.25] : List ℝ).length = ([((6:ℝ),(7:ℝ)), (7, 8), (8, 9)] : List (ℝ × ℝ)).length ∧
     2 ≤ ([0.5, 0.25, 0.25] : List ℝ).length ∧
     (∀ x ∈ ([0.5, 0.25, 0.25] : List ℝ), 0 ≤ x) ∧
     ([0.5, 0.25, 0.25] : List ℝ).sum = 1 ∧
     (∀ w ∈ time_per_bin [((6:ℝ),(7:ℝ)), (7, 8), (8, 9)], 0 < w) ∧
     (∀ i, 1 ≤ i → i + 2 ≤ ([0.5, 0.25, 0.25] : List ℝ).length →
       (([0.5, 0.25, 0.25] : List ℝ).take i).sum ≠ 1)) ∧
    (masses_to_zfracOK
        (project_masses [0.5, 0.25, 0.25] [((6:ℝ),(7:ℝ)), (7, 8), (8, 9)])
        [((6:ℝ),(7:ℝ)), (7, 8), (8, 9)] ∧
     zfrac_to_sfrac
        (masses_to_zfrac
          (project_masses [0.5, 0.25, 0.25] [((6:ℝ),(7:ℝ)), (7, 8), (8, 9)])
          [((6:ℝ),(7:ℝ)), (7, 8), (8, 9)]).2 = [0.5, 0.25, 0.25]) := by
  have h6 : tenpow 6 = 1000000 := by
    rw [show (6:ℝ) = ((6:ℕ):ℝ) by norm_num, tenpow_nat]
    norm_num
  have h7 : tenpow 7 = 10000000 := by
    rw [show (7:ℝ) = ((7:ℕ):ℝ) by norm_num, tenpow_nat]
    norm_num
  have h8 : tenpow 8 = 100000000 := by
    rw [show (8:ℝ) = ((8:ℕ):ℝ) by norm_num, tenpow_nat]
    norm_num
  have h9 : tenpow 9 = 1000000000 := by
    rw [show (9:ℝ) = ((9:ℕ):ℝ) by norm_num, tenpow_nat]
    norm_num
  have hW : ∀ w ∈ time_per_bin [((6:ℝ),(7:ℝ)), (7, 8), (8, 9)], 0 < w := by
    intro w hw
    simp only [time_per_bin, List.map_cons, List.map_nil, List.mem_cons,
      List.not_mem_nil, or_false, h6, h7, h8, h9] at hw
    rcases hw with rfl | rfl | rfl <;> norm_num
  have hS : ∀ x ∈ ([0.5, 0.25, 0.25] : List ℝ), 0 ≤ x := by
    intro x hx
    simp only [List.mem_cons, List.not_mem_nil, or_false] at hx
    rcases hx with rfl | rfl | rfl <;> norm_num
  have hnd : ∀ i, 1 ≤ i → i + 2 ≤ ([0.5, 0.25, 0.25] : List ℝ).length →
      (([0.5, 0.25, 0.25] : List ℝ).take i).sum ≠ 1 := by
    intro i h1 h2
    simp only [List.length_cons, List.length_nil] at h2
    have : i = 1 := by omega
    subst this
    simp only [List.take_succ_cons, List.take_zero, List.sum_cons, List.sum_nil]
    norm_num
  exact ⟨⟨by simp, by simp, hS, by norm_num, hW, hnd⟩,
    roundtrip_recovers [0.5, 0.25, 0.25] [((6:ℝ),(7:ℝ)), (7, 8), (8, 9)]
      (by simp) (by simp) hS (by norm_num) hW hnd⟩

/-- Counterexample to C2 as stated: `S = [1, 0, 0]` has entries `≥ 0`
summing to `1`, the bins `[[0,1],[0,1],[0,1]]` have positive widths, and the
projected masses are exactly `[1, 0, 0]`; yet the inverse recursion of
`masses_to_zfrac` divides by a running product that is exactly `0`
(so its floating-point run puts NaN in the returned z-fractions and the
forward transform cannot reproduce `S` within any tolerance). -/
theorem roundtrip_degenerate_cex :
    (∀ x ∈ ([1, 0, 0] : List ℝ), 0 ≤ x) ∧ ([1, 0, 0] : List ℝ).sum = 1 ∧
    (∀ w ∈ time_per_bin [((0:ℝ),(1:ℝ)), (0, 1), (0, 1)], 0 < w) ∧
    project_masses [1, 0, 0] [((0:ℝ),(1:ℝ)), (0, 1), (0, 1)] = [1, 0, 0] ∧
    ¬ (masses_to_zfracOK
          (project_masses [1, 0, 0] [((0:ℝ),(1:ℝ)), (0, 1), (0, 1)])
          [((0:ℝ),(1:ℝ)), (0, 1), (0, 1)] ∧
       zfrac_to_sfrac
          (masses_to_zfrac
            (project_masses [1, 0, 0] [((0:ℝ),(1:ℝ)), (0, 1), (0, 1)])
            [((0:ℝ),(1:ℝ)), (0, 1), (0, 1)]).2 = [1, 0, 0]) := by
  have h1 : tenpow 1 = 10 := by simp [tenpow, Real.rpow_one]
  have h0 : tenpow 0 = 1 := by simp [tenpow, Real.rpow_zero]
  have hw : time_per_bin [((0:ℝ),(1:ℝ)), (0, 1), (0, 1)] = [9, 9, 9] := by
    simp only [time_per_bin, List.map_cons, List.map_nil, h0, h1]
    norm_num
  have hM : project_masses [1, 0, 0] [((0:ℝ),(1:ℝ)), (0, 1), (0, 1)] = [1, 0, 0] := by
    simp only [project_masses, hw, List.zipWith_cons_cons, List.zipWith_nil_right,
      List.zipWith_nil_left, List.sum_cons, List.sum_nil, List.map_cons, List.map_nil]
    norm_num
  have hns : norm_sfr ([1, 0, 0] : List ℝ) [((0:ℝ),(1:ℝ)), (0, 1), (0, 1)] = [1, 0, 0] := by
    simp only [norm_sfr, sfr_from_mass, hw, List.zipWith_cons_cons,
      List.zipWith_nil_right, List.zipWith_nil_left, List.sum_cons, List.sum_nil,
      List.map_cons, List.map_nil]
    norm_num
  refine ⟨?_, by norm_num, ?_, hM, ?_⟩
  · intro x hx
    simp only [List.mem_cons, List.not_mem_nil, or_false] at hx
    rcases hx with rfl | rfl | rfl <;> norm_num
  · intro w hmem
    rw [hw] at hmem
    simp only [List.mem_cons, List.not_mem_nil, or_false] at hmem
    rcases hmem with rfl | rfl | rfl <;> norm_num
  · rintro ⟨⟨-, -, hOK3⟩, -⟩
    rw [hM, hns] at hOK3
    simp only [zfrac_of_sfrOK, List.dropLast, invertLoopOK] at hOK3
    norm_num at hOK3

/-- Counterexample to C5 as stated: `mass = [1, 0, 0]` with bins
`[[0,1],[0,1],[0,1]]` makes the reconstructed z-fraction running product
exactly `0`, so the inverse recursion divides by zero
(`¬ masses_to_zfracOK`, NaN in the floating-point original) — yet
`masses_to_zfrac` surfaces no error: it returns an ordinary length-2
z-fraction vector (`[0, 1]` under this embedding's total division,
`[0, NaN]` in numpy).  Note also that the claim's example `mass[0] = 0`
does not produce a zero running product — only trailing zero masses do. -/
theorem masses_to_zfrac_no_error_cex :
    ¬ masses_to_zfracOK [1, 0, 0] [((0:ℝ),(1:ℝ)), (0, 1), (0, 1)] ∧
    (masses_to_zfrac [1, 0, 0] [((0:ℝ),(1:ℝ)), (0, 1), (0, 1)]).2 = [0, 1] := by
  have h1 : tenpow 1 = 10 := by simp [tenpow, Real.rpow_one]
  have h0 : tenpow 0 = 1 := by simp [tenpow, Real.rpow_zero]
  have hw : time_per_bin [((0:ℝ),(1:ℝ)), (0, 1), (0, 1)] = [9, 9, 9] := by
    simp only [time_per_bin, List.map_cons, List.map_nil, h0, h1]
    norm_num
  have hns : norm_sfr ([1, 0, 0] : List ℝ) [((0:ℝ),(1:ℝ)), (0, 1), (0, 1)] =
      [1, 0, 0] := by
    simp only [norm_sfr, sfr_from_mass, hw, List.zipWith_cons_cons,
      List.zipWith_nil_right, List.zipWith_nil_left, List.sum_cons, List.sum_nil,
      List.map_cons, List.map_nil]
    norm_num
  constructor
  · rintro ⟨-, -, hOK3⟩
    rw [hns] at hOK3
    simp only [zfrac_of_sfrOK, List.dropLast, invertLoopOK] at hOK3
    norm_num at hOK3
  · simp only [masses_to_zfrac, hns, zfrac_of_sfr, List.dropLast, invertLoop]
    norm_num

/-- C5 (amended): on a mass vector whose trailing two bins carry exactly
zero mass (e.g. `mass = [a, 0, 0]`, `a > 0`, three bins of positive width)
the derived sfr-fraction is `[1, 0, 0]`, the reconstructed `z_fraction[0]`
is `0`, and the inverse recursion of `masses_to_zfrac` divides by the zero
running product; the code does not detect or flag this — it still returns a
fully-formed length-2 z-fraction vector (whose later entries are NaN in the
floating-point original). -/
theorem masses_to_zfrac_silent_division (a : ℝ) (bins : List (ℝ × ℝ))
    (ha : 0 < a) (hlen : bins.length = 3)
    (hW : ∀ w ∈ time_per_bin bins, 0 < w) :
    ¬ masses_to_zfracOK [a, 0, 0] bins ∧
    ((masses_to_zfrac [a, 0, 0] bins).2).length = 2 := by
  obtain ⟨b1, b2, b3, rfl⟩ := List.length_eq_three.mp hlen
  have hw1 : 0 < tenpow b1.2 - tenpow b1.1 := hW _ (by simp [time_per_bin])
  have hane : a / (tenpow b1.2 - tenpow b1.1) ≠ 0 :=
    ne_of_gt (div_pos ha hw1)
  have hns : norm_sfr ([a, 0, 0] : List ℝ) [b1, b2, b3] = [1, 0, 0] := by
    simp only [norm_sfr, sfr_from_mass, time_per_bin, List.map_cons, List.map_nil,
      List.zipWith_cons_cons, List.zipWith_nil_right, List.zipWith_nil_left,
      List.sum_cons, List.sum_nil, zero_div, add_zero]
    rw [div_self hane]
  constructor
  · rintro ⟨-, -, hOK3⟩
    rw [hns] at hOK3
    simp only [zfrac_of_sfrOK, List.dropLast, invertLoopOK] at hOK3
    norm_num at hOK3
  · simp only [masses_to_zfrac, hns, zfrac_of_sfr, List.dropLast, invertLoop,
      List.length_cons, List.length_nil]

/-- Witness for C5's amended statement at `a = 1`,
`agebins = [[0,1],[0,1],[0,1]]`. -/
theorem masses_to_zfrac_silent_division_witness :
    ((0:ℝ) < 1 ∧ ([((0:ℝ),(1:ℝ)), (0, 1), (0, 1)] : List (ℝ × ℝ)).length = 3 ∧
     (∀ w ∈ time_per_bin [((0:ℝ),(1:ℝ)), (0, 1), (0, 1)], 0 < w)) ∧
    (¬ masses_to_zfracOK [1, 0, 0] [((0:ℝ),(1:ℝ)), (0, 1), (0, 1)] ∧
     ((masses_to_zfrac [1, 0, 0] [((0:ℝ),(1:ℝ)), (0, 1), (0, 1)]).2).length = 2) := by
  have h1 : tenpow 1 = 10 := by simp [tenpow, Real.rpow_one]
  have h0 : tenpow 0 = 1 := by simp [tenpow, Real.rpow_zero]
  have hW : ∀ w ∈ time_per_bin [((0:ℝ),(1:ℝ)), (0, 1), (0, 1)], 0 < w := by
    intro w hmem
    simp only [time_per_bin, List.map_cons, List.map_nil, h0, h1, List.mem_cons,
      List.not_mem_nil, or_false] at hmem
    rcases hmem with rfl | rfl | rfl <;> norm_num
  exact ⟨⟨by norm_num, by simp, hW⟩,
    masses_to_zfrac_silent_division 1 [((0:ℝ),(1:ℝ)), (0, 1), (0, 1)]
      (by norm_num) (by simp) hW⟩

/-! ### C8: `zred_to_agebins` preserves the first bin and caps the last edge -/

lemma zip_consec_getLast (r : List ℝ) : ∀ a b : ℝ,
    ((List.zip ((a :: b :: r).dropLast) ((a :: b :: r).tail)).getLast?).map
        Prod.snd =
      (a :: b :: r).getLast? := by
  induction r with
  | nil => intro a b; rfl
  | cons c r' ih =>
    intro a b
    have h := ih b c
    simp only [List.dropLast_cons₂, List.tail_cons, List.zip_cons_cons,
      List.getLast?_cons_cons] at h ⊢
    exact h

/-- C8: for every redshift, cosmology lookup and template with at least two
bins, `zred_to_agebins` returns a bin table whose first bin equals the
template's first bin unchanged, and whose final edge is `log10` of the age
of the universe (in years) at that redshift. -/
theorem zred_to_agebins_edges (cosmoAge : ℝ → ℝ) (zred : ℝ)
    (bins : List (ℝ × ℝ)) (h2 : 2 ≤ bins.length) :
    (zred_to_agebins cosmoAge zred bins).head? = bins.head? ∧
    ((zred_to_agebins cosmoAge zred bins).getLast?).map Prod.snd =
      some (log10 (cosmoAge zred * 1e9)) := by
  obtain ⟨b1, b2, rest, hb⟩ : ∃ b1 b2 rest, bins = b1 :: b2 :: rest := by
    cases bins with
    | nil => simp at h2
    | cons x l =>
      cases l with
      | nil => simp at h2
      | cons y m => exact ⟨x, y, m, rfl⟩
  subst hb
  have hdef : zred_to_agebins cosmoAge zred (b1 :: b2 :: rest) =
      List.zip
        ((b1.1 :: b1.2 ::
          (linspace b2.2 (log10 (cosmoAge zred * 1e9 * 0.85))
              ((b1 :: b2 :: rest).length - 2) ++
            [log10 (cosmoAge zred * 1e9)])).dropLast)
        ((b1.1 :: b1.2 ::
          (linspace b2.2 (log10 (cosmoAge zred * 1e9 * 0.85))
              ((b1 :: b2 :: rest).length - 2) ++
            [log10 (cosmoAge zred * 1e9)])).tail) := rfl
  constructor
  · rw [hdef]
    simp only [List.dropLast_cons₂, List.tail_cons, List.zip_cons_cons,
      List.head?_cons]
  · rw [hdef, zip_consec_getLast]
    rw [show b1.1 :: b1.2 ::
        (linspace b2.2 (log10 (cosmoAge zred * 1e9 * 0.85))
            ((b1 :: b2 :: rest).length - 2) ++
          [log10 (cosmoAge zred * 1e9)]) =
        (b1.1 :: b1.2 ::
          linspace b2.2 (log10 (cosmoAge zred * 1e9 * 0.85))
            ((b1 :: b2 :: rest).length - 2)) ++
          [log10 (cosmoAge zred * 1e9)] by simp]
    rw [List.getLast?_concat]

/-- Witness for C8 with a constant cosmology (`13.7` Gyr), `zred = 0` and
the two-bin template `[[6,7],[7,8]]`. -/
theorem zred_to_agebins_edges_witness :
    2 ≤ ([((6:ℝ),(7:ℝ)), (7, 8)] : List (ℝ × ℝ)).length ∧
    ((zred_to_agebins (fun _ => 13.7) 0 [((6:ℝ),(7:ℝ)), (7, 8)]).head? =
        ([((6:ℝ),(7:ℝ)), (7, 8)] : List (ℝ × ℝ)).head? ∧
     ((zred_to_agebins (fun _ => 13.7) 0 [((6:ℝ),(7:ℝ)), (7, 8)]).getLast?).map
         Prod.snd =
       some (log10 ((fun _ : ℝ => (13.7:ℝ)) 0 * 1e9))) :=
  ⟨by simp,
   zred_to_agebins_edges (fun _ => 13.7) 0 [((6:ℝ),(7:ℝ)), (7, 8)] (by simp)⟩

/-! ### C3: the ratio transform, as written, misuses `np.insert` -/

/-- C3 (code bug): at the specification's own example `sfr_ratio = [2.0]`,
`sfr0 = 10`, the source line `np.insert(sfr * sfr0, sfr0, 0)` uses `sfr0`
as the insertion index: index `10` is out of bounds for the length-1 array
`[20.0]`, so the call raises `IndexError` (modelled as `none`) instead of
returning the documented `[10, 20]`. -/
theorem sfratio_to_sfr_raises_at_example : sfratio_to_sfr [2] 10 = none := by
  have harr : ((cumprod [2]).map (· * 10) : List ℝ) = [20] := by
    simp only [cumprod, cumprodAux, List.map_cons, List.map_nil]
    norm_num
  rw [sfratio_to_sfr, harr]
  rw [np_insert, dif_neg]
  rintro ⟨n, hn, hle⟩
  have hn10 : n = 10 := by exact_mod_cast hn
  subst hn10
  simp at hle

/-! ### C9: every transform ignores unrecognized keyword arguments -/

/-- C9: for every transform of the module separately, two keyword
dictionaries that agree on that transform's own named parameters produce
the same output from it, however they differ on every other key —
unrecognized extra fields (including other transforms' parameters) have no
influence on the result. -/
theorem transforms_ignore_extras (cosmoAge : ℝ → ℝ) (kw1 kw2 : Kwargs) :
    (lookupKw kw1 "logzsol" = lookupKw kw2 "logzsol" →
      stellar_logzsol_kw kw1 = stellar_logzsol_kw kw2) ∧
    (lookupKw kw1 "logmass" = lookupKw kw2 "logmass" →
      delogify_mass_kw kw1 = delogify_mass_kw kw2) ∧
    (lookupKw kw1 "tage" = lookupKw kw2 "tage" →
      lookupKw kw1 "fage_burst" = lookupKw kw2 "fage_burst" →
      tburst_from_fage_kw kw1 = tburst_from_fage_kw kw2) ∧
    (lookupKw kw1 "zred" = lookupKw kw2 "zred" →
      lookupKw kw1 "tage_tuniv" = lookupKw kw2 "tage_tuniv" →
      tage_from_tuniv_kw cosmoAge kw1 = tage_from_tuniv_kw cosmoAge kw2) ∧
    (lookupKw kw1 "zred" = lookupKw kw2 "zred" →
      lookupKw kw1 "agebins" = lookupKw kw2 "agebins" →
      zred_to_agebins_kw cosmoAge kw1 = zred_to_agebins_kw cosmoAge kw2) ∧
    (lookupKw kw1 "dust2" = lookupKw kw2 "dust2" →
      lookupKw kw1 "dust_ratio" = lookupKw kw2 "dust_ratio" →
      dustratio_to_dust1_kw kw1 = dustratio_to_dust1_kw kw2) ∧
    (lookupKw kw1 "z_fraction" = lookupKw kw2 "z_fraction" →
      zfrac_to_sfrac_kw kw1 = zfrac_to_sfrac_kw kw2) ∧
    (lookupKw kw1 "total_mass" = lookupKw kw2 "total_mass" →
      lookupKw kw1 "z_fraction" = lookupKw kw2 "z_fraction" →
      lookupKw kw1 "agebins" = lookupKw kw2 "agebins" →
      zfrac_to_masses_kw kw1 = zfrac_to_masses_kw kw2) ∧
    (lookupKw kw1 "total_mass" = lookupKw kw2 "total_mass" →
      lookupKw kw1 "z_fraction" = lookupKw kw2 "z_fraction" →
      lookupKw kw1 "agebins" = lookupKw kw2 "agebins" →
      zfrac_to_sfr_kw kw1 = zfrac_to_sfr_kw kw2) ∧
    (lookupKw kw1 "mass" = lookupKw kw2 "mass" →
      lookupKw kw1 "agebins" = lookupKw kw2 "agebins" →
      masses_to_zfrac_kw kw1 = masses_to_zfrac_kw kw2) ∧
    (lookupKw kw1 "sfr_ratio" = lookupKw kw2 "sfr_ratio" →
      lookupKw kw1 "sfr0" = lookupKw kw2 "sfr0" →
      sfratio_to_sfr_kw kw1 = sfratio_to_sfr_kw kw2) ∧
    (lookupKw kw1 "sfr_ratio" = lookupKw kw2 "sfr_ratio" →
      lookupKw kw1 "sfr0" = lookupKw kw2 "sfr0" →
      lookupKw kw1 "agebins" = lookupKw kw2 "agebins" →
      sfratio_to_mass_kw kw1 = sfratio_to_mass_kw kw2) := by
  refine ⟨?_, ?_, ?_, ?_, ?_, ?_, ?_, ?_, ?_, ?_, ?_, ?_⟩
  · intro h1
    simp only [stellar_logzsol_kw, getNum, h1]
  · intro h1
    simp only [delogify_mass_kw, getNum, h1]
  · intro h1 h2
    simp only [tburst_from_fage_kw, getNum, h1, h2]
  · intro h1 h2
    simp only [tage_from_tuniv_kw, getNum, h1, h2]
  · intro h1 h2
    simp only [zred_to_agebins_kw, getNum, getBins, h1, h2]
  · intro h1 h2
    simp only [dustratio_to_dust1_kw, getNum, h1, h2]
  · intro h1
    simp only [zfrac_to_sfrac_kw, getVec, h1]
  · intro h1 h2 h3
    simp only [zfrac_to_masses_kw, getNum, getVec, getBins, h1, h2, h3]
  · intro h1 h2 h3
    simp only [zfrac_to_sfr_kw, getNum, getVec, getBins, h1, h2, h3]
  · intro h1 h2
    simp only [masses_to_zfrac_kw, getVec, getBins, h1, h2]
  · intro h1 h2
    simp only [sfratio_to_sfr_kw, getVec, getNum, h1, h2]
  · intro h1 h2 h3
    simp only [sfratio_to_mass_kw, getVec, getNum, getBins, h1, h2, h3]

/-- Witness for C9: `kwExtra1` and `kwExtra2` share all named parameters but
carry different unrecognized extra keys, so every per-transform hypothesis
is discharged concretely and every transform returns the same result on
both. -/
theorem transforms_ignore_extras_witness :
    (lookupKw kwExtra1 "logzsol" = lookupKw kwExtra2 "logzsol" ∧
     lookupKw kwExtra1 "logmass" = lookupKw kwExtra2 "logmass" ∧
     lookupKw kwExtra1 "tage" = lookupKw kwExtra2 "tage" ∧
     lookupKw kwExtra1 "fage_burst" = lookupKw kwExtra2 "fage_burst" ∧
     lookupKw kwExtra1 "zred" = lookupKw kwExtra2 "zred" ∧
     lookupKw kwExtra1 "tage_tuniv" = lookupKw kwExtra2 "tage_tuniv" ∧
     lookupKw kwExtra1 "agebins" = lookupKw kwExtra2 "agebins" ∧
     lookupKw kwExtra1 "dust2" = lookupKw kwExtra2 "dust2" ∧
     lookupKw kwExtra1 "dust_ratio" = lookupKw kwExtra2 "dust_ratio" ∧
     lookupKw kwExtra1 "total_mass" = lookupKw kwExtra2 "total_mass" ∧
     lookupKw kwExtra1 "z_fraction" = lookupKw kwExtra2 "z_fraction" ∧
     lookupKw kwExtra1 "mass" = lookupKw kwExtra2 "mass" ∧
     lookupKw kwExtra1 "sfr_ratio" = lookupKw kwExtra2 "sfr_ratio" ∧
     lookupKw kwExtra1 "sfr0" = lookupKw kwExtra2 "sfr0") ∧
    (stellar_logzsol_kw kwExtra1 = stellar_logzsol_kw kwExtra2 ∧
     delogify_mass_kw kwExtra1 = delogify_mass_kw kwExtra2 ∧
     tburst_from_fage_kw kwExtra1 = tburst_from_fage_kw kwExtra2 ∧
     tage_from_tuniv_kw (fun _ => 0) kwExtra1 =
       tage_from_tuniv_kw (fun _ => 0) kwExtra2 ∧
     zred_to_agebins_kw (fun _ => 0) kwExtra1 =
       zred_to_agebins_kw (fun _ => 0) kwExtra2 ∧
     dustratio_to_dust1_kw kwExtra1 = dustratio_to_dust1_kw kwExtra2 ∧
     zfrac_to_sfrac_kw kwExtra1 = zfrac_to_sfrac_kw kwExtra2 ∧
     zfrac_to_masses_kw kwExtra1 = zfrac_to_masses_kw kwExtra2 ∧
     zfrac_to_sfr_kw kwExtra1 = zfrac_to_sfr_kw kwExtra2 ∧
     masses_to_zfrac_kw kwExtra1 = masses_to_zfrac_kw kwExtra2 ∧
     sfratio_to_sfr_kw kwExtra1 = sfratio_to_sfr_kw kwExtra2 ∧
     sfratio_to_mass_kw kwExtra1 = sfratio_to_mass_kw kwExtra2) := by
  obtain ⟨t01, t02, t03, t04, t05, t06, t07, t08, t09, t10, t11, t12⟩ :=
    transforms_ignore_extras (fun _ => 0) kwExtra1 kwExtra2
  exact ⟨⟨rfl, rfl, rfl, rfl, rfl, rfl, rfl, rfl, rfl, rfl, rfl, rfl, rfl, rfl⟩,
    t01 rfl, t02 rfl, t03 rfl rfl, t04 rfl rfl, t05 rfl rfl, t06 rfl rfl,
    t07 rfl, t08 rfl rfl rfl, t09 rfl rfl rfl, t10 rfl rfl, t11 rfl rfl,
    t12 rfl rfl rfl⟩

end Prospect
